import Mathlib

/-!
Verification of the `goproc` concurrency library.

The development shallowly embeds the three components of the repository:

* `PriorityQueue` (priority_queue.go): an array-backed binary heap driven by
  Go's `container/heap` algorithms.  Items are represented by their `int64`
  priority (`Int`), which is all the heap ever inspects.  The sift procedures
  `up` and `down` are transcribed from `container/heap` (the platform
  primitive the repository builds on), operating on a `List Int` with the
  index arithmetic of the original (`Swap` is modelled by `swapL`).
* `TimeoutChan` (timeout_chan.go): the deadline-ordered delivery queue.  Its
  mutex-protected mutations `push`, `pop` and `Clear` are embedded as pure
  functions on a `TimeoutChan` state; each returns the list of notices the
  original fires inside the same critical section (`resumePop`,
  `reschedule`, `resumePush`).  The two background processes are modelled by
  a small-step transition relation `Step` whose constructors correspond to
  the atomic critical sections of the Go code, plus monotone advancement of
  the clock; `Reach` is its reflexive-transitive closure from the freshly
  constructed state.
* `BackgroundController` (controller.go): contexts are embedded as records
  carrying the observable data (`Err`, values, deadline, and the identity of
  the cancel token that fires them); controllers carry the shared cancel
  function and wait-group by identity, so that sharing of the cancellation
  authority between derived handles is expressible.  A Go `panic(err)` is
  embedded as `Except.error err`.

Deadlines and durations are nanosecond counts (`Int`), as in
`Deadline().UnixNano()`.
-/

/-! ### Definitions: comparators and list primitives -/

/-- Ascending comparator of priority_queue.go (`func lt(a, b int64) bool`). -/
def lt (a b : Int) : Bool := decide (a < b)

/-- Descending comparator of priority_queue.go (`func ge(a, b int64) bool`,
which is in fact strict `b < a`). -/
def ge (a b : Int) : Bool := decide (b < a)

/-- Model of `PriorityQueue.Swap` (`q.heap[i], q.heap[j] = q.heap[j], q.heap[i]`). -/
def swapL (l : List Int) (i j : Nat) : List Int :=
  (l.set i (l.getD j 0)).set j (l.getD i 0)

/-! ### Definitions: the container/heap algorithms

Go's `container/heap` maintains, for a slice `h` of length `n`, the invariant
`!h.Less(j, i)` for every parent `i` and child `j = 2*i+1` or `j = 2*i+2`
with `j < n`.  `heapPropN` states this invariant restricted to the first `n`
entries (as `down` only operates on such a prefix), `heapProp` for the whole
list. -/

/-- The heap invariant of container/heap on the first `n` entries. -/
def heapPropN (less : Int → Int → Bool) (l : List Int) (n : Nat) : Prop :=
  ∀ p k : Nat, (k = 2 * p + 1 ∨ k = 2 * p + 2) → k < n →
    less (l.getD k 0) (l.getD p 0) = false

/-- The heap invariant of container/heap on the whole backing list. -/
def heapProp (less : Int → Int → Bool) (l : List Int) : Prop :=
  heapPropN less l l.length

/-- Executable version of `heapProp`: every non-root entry is checked against
its parent `(j-1)/2`. -/
def heapPropD (less : Int → Int → Bool) (l : List Int) : Bool :=
  (List.range l.length).all fun j =>
    j == 0 || !less (l.getD j 0) (l.getD ((j - 1) / 2) 0)

/-- The loop of container/heap's `up`, written with a structural fuel so
that it evaluates; the bubble index `j` strictly decreases on every
iteration, so any fuel above the initial `j` never runs out (made precise by
`upGo_congr` and `up_eq`). -/
def upGo (less : Int → Int → Bool) : Nat → List Int → Nat → List Int
  | 0, l, _ => l
  | fuel + 1, l, j =>
    if j = 0 then l
    else if less (l.getD j 0) (l.getD ((j - 1) / 2) 0) then
      upGo less fuel (swapL l ((j - 1) / 2) j) ((j - 1) / 2)
    else l

/-- Model of container/heap's `up`: sift the entry at `j` towards the root,
swapping it with its parent `(j-1)/2` while it is strictly `less`.  The
defining loop equation is `up_eq`. -/
def up (less : Int → Int → Bool) (l : List Int) (j : Nat) : List Int :=
  upGo less (j + 1) l j

/-- The child that `down` compares against: the left child `2*i+1`, or the
right child `2*i+2` when it exists below `n` and is strictly `less`. -/
def downChild (less : Int → Int → Bool) (l : List Int) (i n : Nat) : Nat :=
  if 2 * i + 2 < n ∧ less (l.getD (2 * i + 2) 0) (l.getD (2 * i + 1) 0) = true then
    2 * i + 2
  else 2 * i + 1

/-- The loop of container/heap's `down`, written with a structural fuel; the
distance from the bubble index `i` to the prefix bound `n` strictly
decreases on every iteration, so fuel `n - i` never runs out (made precise
by `downGo_congr` and `down_eq`). -/
def downGo (less : Int → Int → Bool) : Nat → List Int → Nat → Nat → List Int
  | 0, l, _, _ => l
  | fuel + 1, l, i, n =>
    if n ≤ 2 * i + 1 then l
    else if less (l.getD (downChild less l i n) 0) (l.getD i 0) then
      downGo less fuel (swapL l i (downChild less l i n)) (downChild less l i n) n
    else l

/-- Model of container/heap's `down`: sift the entry at `i` towards the
leaves of the prefix of length `n`, swapping with the smaller child while it
is strictly `less`.  The defining loop equation is `down_eq`. -/
def down (less : Int → Int → Bool) (l : List Int) (i n : Nat) : List Int :=
  downGo less (n - i) l i n

/-- Model of container/heap's `heap.Push` composed with `PriorityQueue.Push`:
append the new entry, then sift it up from the last index. -/
def heapPush (less : Int → Int → Bool) (l : List Int) (x : Int) : List Int :=
  up less (l ++ [x]) ((l ++ [x]).length - 1)

/-- Model of container/heap's `heap.Pop` composed with `PriorityQueue.Pop`:
swap the root with the last entry, sift the new root down within the prefix
excluding the last slot, then remove and return the last entry.  On an empty
queue the original indexes the slice at `-1` and panics; this fault is
modelled by `none`. -/
def heapPop (less : Int → Int → Bool) (l : List Int) : Option (Int × List Int) :=
  match l with
  | [] => none
  | _ :: _ =>
    some ((down less (swapL l 0 (l.length - 1)) 0 (l.length - 1)).getD (l.length - 1) 0,
          (down less (swapL l 0 (l.length - 1)) 0 (l.length - 1)).take (l.length - 1))

/-! ### Definitions: PriorityQueue -/

/-- The `PriorityQueue` of priority_queue.go.  The original stores the
comparator function selected from `desc`; the embedding stores `desc`
itself and derives the comparator via `PriorityQueue.less`. -/
structure PriorityQueue where
  heap : List Int
  desc : Bool
deriving DecidableEq

/-- The comparator selected by `NewPriorityQueue` (`ge` if descending,
`lt` otherwise). -/
def PriorityQueue.less (q : PriorityQueue) : Int → Int → Bool :=
  if q.desc then ge else lt

/-- Model of `NewPriorityQueue`; the `size` argument only preallocates
capacity and has no observable effect. -/
def NewPriorityQueue (desc : Bool) : PriorityQueue :=
  { heap := [], desc := desc }

/-- Model of `PriorityQueue.Len`. -/
def PriorityQueue.Len (q : PriorityQueue) : Nat := q.heap.length

/-- Model of `PriorityQueue.Peek` (`q.heap[0]`); the index panic on an empty
queue is modelled by `none`. -/
def PriorityQueue.Peek (q : PriorityQueue) : Option Int :=
  match q.heap with
  | [] => none
  | x :: _ => some x

/-- Model of `heap.Push(q, x)` on a `PriorityQueue`. -/
def PriorityQueue.push (q : PriorityQueue) (x : Int) : PriorityQueue :=
  { q with heap := heapPush q.less q.heap x }

/-- Model of `heap.Pop(q)` on a `PriorityQueue`; `none` models the panic on
an empty queue. -/
def PriorityQueue.pop (q : PriorityQueue) : Option (Int × PriorityQueue) :=
  match heapPop q.less q.heap with
  | none => none
  | some (x, h) => some (x, { q with heap := h })

/-- Model of `PriorityQueue.Clear`: returns the removed count and the
emptied queue. -/
def PriorityQueue.Clear (q : PriorityQueue) : Nat × PriorityQueue :=
  (q.heap.length, { q with heap := [] })

/-! ### Definitions: TimeoutChan

The embedding keeps the data protected by the mutex (`pq` as the backing
list of the ascending priority queue of deadlines, the three counters), the
construction parameters, a monotone clock `now`, the history `out` of items
sent to the `Out` channel, and whether the push process is in its suspending
phase.  Each mutation returns the notices fired inside its critical section;
the unbuffered notice channels synchronise with the process that receives
the notice, which the step relation below reflects by updating the process
phase in the same step. -/

/-- The notices a TimeoutChan mutation can fire: a send on `resumePop`, a
close-and-replace of the `reschedule` channel (the broadcast-then-rotate),
or a send on `resumePush`. -/
inductive Notice
  | resumePop
  | reschedule
  | resumePush
deriving DecidableEq

/-- State of a `TimeoutChan`. -/
structure TimeoutChan where
  resolution : Int
  limit : Nat
  pq : List Int
  pushed : Nat
  popped : Nat
  cleared : Nat
  now : Int
  out : List Int
  pushSuspended : Bool
deriving DecidableEq

/-- Model of `NewTimeoutChan`: empty ascending queue, zero counters, both
processes started (the push process begins in its working phase). -/
def NewTimeoutChan (resolution : Int) (limit : Nat) (now : Int) : TimeoutChan :=
  { resolution := resolution, limit := limit, pq := [], pushed := 0, popped := 0,
    cleared := 0, now := now, out := [], pushSuspended := false }

/-- Model of `TimeoutChan.push`: fire `resumePop` when the heap is empty,
else fire `reschedule` when the new deadline strictly precedes the current
minimum; push onto the heap and increment `pushed`.  All of this happens in
one critical section, here one function. -/
def TimeoutChan.push (c : TimeoutChan) (d : Int) : TimeoutChan × List Notice :=
  ({ c with pq := heapPush lt c.pq d, pushed := c.pushed + 1 },
   if c.pq.length = 0 then [Notice.resumePop]
   else if lt d (c.pq.getD 0 0) then [Notice.reschedule]
   else [])

/-- Model of `TimeoutChan.pop`: fire `resumePush` when a bounded heap is
exactly at its limit before the pop; increment `popped` and pop the minimum.
The panic of popping an empty heap is modelled by `none`. -/
def TimeoutChan.pop (c : TimeoutChan) : Option (Int × TimeoutChan × List Notice) :=
  match heapPop lt c.pq with
  | none => none
  | some (x, h) =>
    some (x, { c with pq := h, popped := c.popped + 1 },
          if 0 < c.limit ∧ c.pq.length = c.limit then [Notice.resumePush] else [])

/-- Model of `TimeoutChan.Clear`: discard the heap contents, add the removed
count to `cleared`, fire `resumePush` when the heap was exactly at a positive
limit, and restart both processes (so the push process is back in its working
phase). -/
def TimeoutChan.Clear (c : TimeoutChan) : TimeoutChan × Nat × List Notice :=
  ({ c with pq := [], cleared := c.cleared + c.pq.length, pushSuspended := false },
   c.pq.length,
   if 0 < c.limit ∧ c.pq.length = c.limit then [Notice.resumePush] else [])

/-- One working-phase emission of `popProcess`: `c.out <- c.pop()`.  The
`resumePush` notice is received by the suspended push process within the same
synchronisation (the channel is unbuffered), returning it to its working
phase. -/
def TimeoutChan.emitStep (c : TimeoutChan) : TimeoutChan :=
  match c.pop with
  | none => c
  | some (x, c2, ns) =>
    { c2 with
      out := c2.out ++ [x],
      pushSuspended := if Notice.resumePush ∈ ns then false else c2.pushSuspended }

/-- One working-phase iteration of `pushProcess`: receive an item from `In`,
push it, then suspend unless `c.limit == 0 || c.len() < c.limit`. -/
def TimeoutChan.intakeStep (c : TimeoutChan) (d : Int) : TimeoutChan :=
  { (c.push d).1 with
    pushSuspended :=
      if c.limit = 0 ∨ (c.push d).1.pq.length < c.limit then false else true }

/-- Repeated emission, used to model the drain performed between `close()`
and the closing of the `Out` channel.  `popProcess` keeps emitting until the
heap is empty (waiting out remaining deadlines as needed); the variant is
the heap length. -/
def TimeoutChan.drainN : Nat → TimeoutChan → TimeoutChan
  | 0, c => c
  | n + 1, c => TimeoutChan.drainN n c.emitStep

/-- Model of the drain that `Close()` waits for: emit until the heap is
empty; afterwards the `Out` channel is closed, so `out` is the complete
output stream. -/
def TimeoutChan.closeDrain (c : TimeoutChan) : TimeoutChan :=
  TimeoutChan.drainN c.pq.length c

/-- The spinning sub-phase wait computation of `popProcess`:
`if d := delta / 2; d > c.resolution { delta = d } else if delta > c.resolution
{ delta = c.resolution }`, the result being the duration handed to
`time.NewTimer`. -/
def spinInterval (delta resolution : Int) : Int :=
  if delta / 2 > resolution then delta / 2
  else if delta > resolution then resolution
  else delta

/-- Atomic transitions of the TimeoutChan system.  Each constructor is one
critical section of the Go code (or a clock advance).  When `fut` is `true`,
runs are restricted to pushes whose deadline has not already elapsed at push
time. -/
inductive Step (fut : Bool) : TimeoutChan → TimeoutChan → Prop
  | advance (c : TimeoutChan) (t : Int) (ht : 0 ≤ t) :
      Step fut c { c with now := c.now + t }
  | directPush (c : TimeoutChan) (d : Int) (h0 : c.limit = 0)
      (hf : fut = true → c.now ≤ d) :
      Step fut c (c.push d).1
  | intakePush (c : TimeoutChan) (d : Int) (hs : c.pushSuspended = false)
      (hf : fut = true → c.now ≤ d) :
      Step fut c (c.intakeStep d)
  | emit (c : TimeoutChan) (hne : c.pq.length ≠ 0) (hd : c.pq.getD 0 0 ≤ c.now) :
      Step fut c c.emitStep
  | clearStep (c : TimeoutChan) :
      Step fut c (c.Clear).1

/-- Reachability from a state by `Step fut` transitions. -/
inductive Reach (fut : Bool) (c0 : TimeoutChan) : TimeoutChan → Prop
  | refl : Reach fut c0 c0
  | tail {b c : TimeoutChan} : Reach fut c0 b → Step fut b c → Reach fut c0 c

/-- The counter bookkeeping relation checked at quiescent points:
`pushed == popped + cleared + pendingLength`. -/
def TimeoutChan.CounterEq (c : TimeoutChan) : Prop :=
  c.pushed = c.popped + c.cleared + c.pq.length

/-- The internal invariant of the TimeoutChan state machine: the heap
invariant of the ascending deadline queue, exact counter bookkeeping, the
output history matching the popped counter, and the capacity discipline of
the push process on bounded queues. -/
def TimeoutChan.Inv (c : TimeoutChan) : Prop :=
  heapProp lt c.pq ∧
  c.pushed = c.popped + c.cleared + c.pq.length ∧
  c.popped = c.out.length ∧
  (0 < c.limit →
    (c.pushSuspended = true → c.pq.length = c.limit) ∧
    (c.pushSuspended = false → c.pq.length < c.limit))

/-- The ordering invariant of future-only runs: the output history is
non-decreasing by deadline, every emitted deadline has elapsed, and every
emitted deadline is at most every pending deadline. -/
def TimeoutChan.OrdInv (c : TimeoutChan) : Prop :=
  List.Pairwise (fun a b : Int => a ≤ b) c.out ∧
  (∀ x ∈ c.out, x ≤ c.now) ∧
  (∀ x ∈ c.out, ∀ y ∈ c.pq, x ≤ y)

/-! ### Definitions: BackgroundController -/

/-- The two sentinel errors of Go's context package. -/
inductive CtxErr
  | canceled
  | deadlineExceeded
deriving DecidableEq

/-- Observable state of a Go `context.Context`: the current `Err()`, the
identity of the cancel token whose firing cancels it (shared along value and
deadline derivations), the key/value pairs, and the effective deadline. -/
structure GoContext where
  err : Option CtxErr
  cancelToken : Nat
  vals : List (Int × Int)
  deadline : Option Int
deriving DecidableEq

/-- Model of `context.WithValue`. -/
def GoContext.withValueCtx (ctx : GoContext) (k v : Int) : GoContext :=
  { ctx with vals := (k, v) :: ctx.vals }

/-- Model of `context.WithDeadline` (the returned cancel function is
discarded by the controller, as in the source): the effective deadline is
the earlier of the existing and the new one; cancellation by the shared
token is unaffected. -/
def GoContext.withDeadlineCtx (ctx : GoContext) (d : Int) : GoContext :=
  { ctx with deadline := some (match ctx.deadline with
      | none => d
      | some d0 => min d0 d) }

/-- A worker spawned by a controller; it observes cancellation through the
token of the context it was handed. -/
structure Worker where
  token : Nat
deriving DecidableEq

/-- The `BackgroundController` of controller.go: a context handle plus the
shared cancel function and `sync.WaitGroup`, both held by reference and
modelled by their identities. -/
structure BackgroundController where
  name : String
  ctx : GoContext
  cancel : Nat
  wg : Nat
deriving DecidableEq

/-- Model of `NewBackgroundController`: `context.WithCancel(parent)` yields a
child context with a fresh cancel token `tok`; if the parent is already
cancelled the child is born cancelled with the parent's error.  A fresh
`sync.WaitGroup` has identity `wgId`.  Construction performs no check and
cannot fault. -/
def NewBackgroundController (parent : GoContext) (name : String) (tok wgId : Nat) :
    BackgroundController :=
  { name := name,
    ctx := { err := parent.err, cancelToken := tok, vals := parent.vals,
             deadline := parent.deadline },
    cancel := tok, wg := wgId }

/-- Model of `BackgroundController.GoBackground`: panic (modelled by
`Except.error`) with the context error if the scope is dead, else spawn a
worker that observes the controller's context. -/
def BackgroundController.GoBackground (c : BackgroundController) :
    Except CtxErr (BackgroundController × Worker) :=
  match c.ctx.err with
  | some e => Except.error e
  | none => Except.ok (c, { token := c.ctx.cancelToken })

/-- Model of `BackgroundController.GoRecoverableBackground`: the same dead
scope check; faults inside the worker are intercepted by the supplied
handler, which does not change what the spawn returns. -/
def BackgroundController.GoRecoverableBackground (c : BackgroundController) :
    Except CtxErr (BackgroundController × Worker) :=
  match c.ctx.err with
  | some e => Except.error e
  | none => Except.ok (c, { token := c.ctx.cancelToken })

/-- Model of `BackgroundController.WithValue`: dead scope check, then a copy
of the handle with the value added to its context; `cancel` and `wg` are the
same shared references. -/
def BackgroundController.WithValue (c : BackgroundController) (k v : Int) :
    Except CtxErr BackgroundController :=
  match c.ctx.err with
  | some e => Except.error e
  | none => Except.ok { name := c.name, ctx := c.ctx.withValueCtx k v,
                        cancel := c.cancel, wg := c.wg }

/-- Model of `BackgroundController.WithDeadline`. -/
def BackgroundController.WithDeadline (c : BackgroundController) (d : Int) :
    Except CtxErr BackgroundController :=
  match c.ctx.err with
  | some e => Except.error e
  | none => Except.ok { name := c.name, ctx := c.ctx.withDeadlineCtx d,
                        cancel := c.cancel, wg := c.wg }

/-- Model of `BackgroundController.WithTimeout`
(`context.WithTimeout(ctx, t) = context.WithDeadline(ctx, now + t)`). -/
def BackgroundController.WithTimeout (c : BackgroundController) (now t : Int) :
    Except CtxErr BackgroundController :=
  match c.ctx.err with
  | some e => Except.error e
  | none => Except.ok { name := c.name, ctx := c.ctx.withDeadlineCtx (now + t),
                        cancel := c.cancel, wg := c.wg }

/-- Model of `BackgroundController.Die` (`c.ctx.Err() != nil`). -/
def BackgroundController.Die (c : BackgroundController) : Bool :=
  c.ctx.err.isSome

/-- A controller handle is well formed when its stored cancel function is
the one that fires its own context's token, as established by
`NewBackgroundController`. -/
def BackgroundController.WellFormed (c : BackgroundController) : Prop :=
  c.cancel = c.ctx.cancelToken

/-- Calling `Shutdown` on `c` fires the token `c.cancel`; it cancels worker
`w` exactly when `w` observes that token. -/
def BackgroundController.ShutdownCancels (c : BackgroundController) (w : Worker) : Prop :=
  w.token = c.cancel

/-- The derivation family of a handle: every handle obtained from it by a
chain of successful `WithValue` / `WithDeadline` / `WithTimeout` calls. -/
inductive Derived : BackgroundController → BackgroundController → Prop
  | refl (c : BackgroundController) : Derived c c
  | value {a b b' : BackgroundController} (k v : Int) :
      Derived a b → b.WithValue k v = Except.ok b' → Derived a b'
  | deadline {a b b' : BackgroundController} (d : Int) :
      Derived a b → b.WithDeadline d = Except.ok b' → Derived a b'
  | timeout {a b b' : BackgroundController} (now t : Int) :
      Derived a b → b.WithTimeout now t = Except.ok b' → Derived a b'

/-! ### Theorems: comparator facts -/

theorem lt_irr (a : Int) : lt a a = false := by simp [lt]

theorem lt_twotrans (a b c : Int) (h1 : lt b a = false) (h2 : lt c b = false) :
    lt c a = false := by
  simp only [lt, decide_eq_false_iff_not] at *
  omega

theorem lt_mixtrans (a b c : Int) (h1 : lt a b = true) (h2 : lt c b = false) :
    lt c a = false := by
  simp only [lt, decide_eq_true_eq, decide_eq_false_iff_not] at *
  omega

theorem ge_irr (a : Int) : ge a a = false := by simp [ge]

theorem ge_twotrans (a b c : Int) (h1 : ge b a = false) (h2 : ge c b = false) :
    ge c a = false := by
  simp only [ge, decide_eq_false_iff_not] at *
  omega

theorem ge_mixtrans (a b c : Int) (h1 : ge a b = true) (h2 : ge c b = false) :
    ge c a = false := by
  simp only [ge, decide_eq_true_eq, decide_eq_false_iff_not] at *
  omega

/-- Derived: a strict comparator is asymmetric. -/
theorem less_asym (less : Int → Int → Bool)
    (hirr : ∀ a, less a a = false)
    (hmix : ∀ a b c, less a b = true → less c b = false → less c a = false)
    {a b : Int} (h : less a b = true) : less b a = false :=
  hmix a b b h (hirr b)

/-! ### Theorems: list primitives -/

theorem getD_set_same : ∀ (l : List Int) (i : Nat) (a : Int), i < l.length →
    (l.set i a).getD i 0 = a := by
  intro l
  induction l with
  | nil => intro i a h; simp at h
  | cons x xs ih =>
    intro i a h
    cases i with
    | zero => simp
    | succ n => simpa using ih n a (by simpa using h)

theorem getD_set_other : ∀ (l : List Int) (i j : Nat) (a : Int), i ≠ j →
    (l.set i a).getD j 0 = l.getD j 0 := by
  intro l
  induction l with
  | nil => intro i j a _; simp
  | cons x xs ih =>
    intro i j a hij
    cases i with
    | zero =>
      cases j with
      | zero => exact absurd rfl hij
      | succ m => simp
    | succ n =>
      cases j with
      | zero => simp
      | succ m => simpa using ih n m a (by omega)

theorem set_getD_self : ∀ (l : List Int) (i : Nat), l.set i (l.getD i 0) = l := by
  intro l
  induction l with
  | nil => intro i; simp
  | cons x xs ih =>
    intro i
    cases i with
    | zero => simp
    | succ n => simpa using ih n

theorem getD_append_left : ∀ (l l2 : List Int) (k : Nat), k < l.length →
    (l ++ l2).getD k 0 = l.getD k 0 := by
  intro l
  induction l with
  | nil => intro l2 k h; simp at h
  | cons x xs ih =>
    intro l2 k h
    cases k with
    | zero => simp
    | succ n => simpa using ih l2 n (by simpa using h)

theorem getD_append_at : ∀ (l : List Int) (x : Int),
    (l ++ [x]).getD l.length 0 = x := by
  intro l
  induction l with
  | nil => intro x; simp
  | cons y ys ih => intro x; simpa using ih x

theorem length_swapL (l : List Int) (i j : Nat) : (swapL l i j).length = l.length := by
  simp [swapL]

theorem getD_swapL_fst (l : List Int) (i j : Nat) (hi : i < l.length) (hij : i ≠ j) :
    (swapL l i j).getD i 0 = l.getD j 0 := by
  rw [swapL, getD_set_other _ j i _ (by omega), getD_set_same _ _ _ hi]

theorem getD_swapL_snd (l : List Int) (i j : Nat) (hj : j < l.length) :
    (swapL l i j).getD j 0 = l.getD i 0 := by
  rw [swapL, getD_set_same _ _ _ (by simpa using hj)]

theorem getD_swapL_other (l : List Int) (i j k : Nat) (hki : k ≠ i) (hkj : k ≠ j) :
    (swapL l i j).getD k 0 = l.getD k 0 := by
  rw [swapL, getD_set_other _ j k _ (by omega), getD_set_other _ i k _ (by omega)]

theorem swapL_comm (l : List Int) (i j : Nat) : swapL l i j = swapL l j i := by
  by_cases hij : i = j
  · rw [hij]
  · rw [swapL, swapL, List.set_comm _ _ _ hij]

theorem perm_setD_cons : ∀ (xs : List Int) (k : Nat) (x : Int), k < xs.length →
    List.Perm ((xs.getD k 0) :: xs.set k x) (x :: xs) := by
  intro xs
  induction xs with
  | nil => intro k x h; simp at h
  | cons y ys ih =>
    intro k x h
    cases k with
    | zero => simpa using List.Perm.swap x y ys
    | succ m =>
      simp only [List.getD_cons_succ, List.set_cons_succ]
      refine List.Perm.trans (List.Perm.swap y _ _) ?_
      exact List.Perm.trans (List.Perm.cons y (ih m x (by simpa using h)))
        (List.Perm.swap x y ys)

theorem perm_swapL : ∀ (l : List Int) (i j : Nat), i < l.length → j < l.length →
    List.Perm (swapL l i j) l := by
  intro l i
  induction l generalizing i with
  | nil => intro j hi _; simp at hi
  | cons x xs ih =>
    intro j hi hj
    cases i with
    | zero =>
      cases j with
      | zero => simp [swapL]
      | succ m =>
        simp only [swapL, List.getD_cons_succ, List.getD_cons_zero, List.set_cons_zero,
          List.set_cons_succ]
        exact perm_setD_cons xs m x (by simpa using hj)
    | succ n =>
      cases j with
      | zero =>
        rw [swapL_comm]
        simp only [swapL, List.getD_cons_succ, List.getD_cons_zero, List.set_cons_zero,
          List.set_cons_succ]
        exact perm_setD_cons xs n x (by simpa using hi)
      | succ m =>
        simp only [swapL, List.getD_cons_succ, List.set_cons_succ]
        exact List.Perm.cons x (ih n m (by simpa using hi) (by simpa using hj))

theorem getD_take : ∀ (l : List Int) (n k : Nat), k < n →
    (l.take n).getD k 0 = l.getD k 0 := by
  intro l
  induction l with
  | nil => intro n k _; simp
  | cons x xs ih =>
    intro n k hk
    cases n with
    | zero => omega
    | succ m =>
      cases k with
      | zero => simp
      | succ k0 => simpa using ih m k0 (by omega)

theorem drop_last_of_length (l : List Int) (n : Nat) (h : l.length = n + 1) :
    l.drop n = [l.getD n 0] := by
  have hn : n < l.length := by omega
  rw [List.drop_eq_getElem_cons hn, List.getD_eq_getElem l 0 hn]
  have : l.drop (n + 1) = [] := by
    rw [← h]
    exact List.drop_length l
  rw [this]

/-! ### Theorems: sift procedures -/

theorem downChild_bounds (less : Int → Int → Bool) (l : List Int) (i n : Nat)
    (h : 2 * i + 1 < n) :
    i < downChild less l i n ∧ downChild less l i n < n := by
  unfold downChild
  split
  next hc => exact ⟨by omega, hc.1⟩
  next => exact ⟨by omega, by omega⟩

theorem downChild_cases (less : Int → Int → Bool) (l : List Int) (i n : Nat) :
    downChild less l i n = 2 * i + 1 ∨ downChild less l i n = 2 * i + 2 := by
  unfold downChild
  split
  · exact Or.inr rfl
  · exact Or.inl rfl

theorem upGo_congr (less : Int → Int → Bool) : ∀ (f1 f2 : Nat) (l : List Int) (j : Nat),
    j < f1 → j < f2 → upGo less f1 l j = upGo less f2 l j := by
  intro f1
  induction f1 with
  | zero => intro f2 l j h1 _; omega
  | succ f1 ih =>
    intro f2 l j h1 h2
    cases f2 with
    | zero => omega
    | succ f2 =>
      show (if j = 0 then l else _) = (if j = 0 then l else _)
      by_cases h0 : j = 0
      · rw [if_pos h0, if_pos h0]
      · rw [if_neg h0, if_neg h0]
        by_cases hc : less (l.getD j 0) (l.getD ((j - 1) / 2) 0) = true
        · rw [if_pos hc, if_pos hc]
          exact ih f2 _ _ (by omega) (by omega)
        · rw [if_neg hc, if_neg hc]

theorem up_eq (less : Int → Int → Bool) (l : List Int) (j : Nat) :
    up less l j =
      if j = 0 then l
      else if less (l.getD j 0) (l.getD ((j - 1) / 2) 0) then
        up less (swapL l ((j - 1) / 2) j) ((j - 1) / 2)
      else l := by
  by_cases h0 : j = 0
  · subst h0
    rfl
  · rw [if_neg h0]
    show (if j = 0 then l else _) = _
    rw [if_neg h0]
    by_cases hc : less (l.getD j 0) (l.getD ((j - 1) / 2) 0) = true
    · rw [if_pos hc, if_pos hc]
      exact upGo_congr less j ((j - 1) / 2 + 1) _ _ (by omega) (by omega)
    · rw [if_neg hc, if_neg hc]

theorem downGo_congr (less : Int → Int → Bool) :
    ∀ (f1 f2 : Nat) (l : List Int) (i n : Nat),
    n - i ≤ f1 → n - i ≤ f2 → downGo less f1 l i n = downGo less f2 l i n := by
  intro f1
  induction f1 with
  | zero =>
    intro f2 l i n h1 _
    cases f2 with
    | zero => rfl
    | succ f2 =>
      show l = (if n ≤ 2 * i + 1 then l else _)
      rw [if_pos (by omega)]
  | succ f1 ih =>
    intro f2 l i n h1 h2
    cases f2 with
    | zero =>
      show (if n ≤ 2 * i + 1 then l else _) = l
      rw [if_pos (by omega)]
    | succ f2 =>
      show (if n ≤ 2 * i + 1 then l else _) = (if n ≤ 2 * i + 1 then l else _)
      by_cases hc : n ≤ 2 * i + 1
      · rw [if_pos hc, if_pos hc]
      · rw [if_neg hc, if_neg hc]
        have hdb := downChild_bounds less l i n (by omega)
        by_cases hless : less (l.getD (downChild less l i n) 0) (l.getD i 0) = true
        · rw [if_pos hless, if_pos hless]
          exact ih f2 _ _ n (by omega) (by omega)
        · rw [if_neg hless, if_neg hless]

theorem down_eq (less : Int → Int → Bool) (l : List Int) (i n : Nat) :
    down less l i n =
      if n ≤ 2 * i + 1 then l
      else if less (l.getD (downChild less l i n) 0) (l.getD i 0) then
        down less (swapL l i (downChild less l i n)) (downChild less l i n) n
      else l := by
  by_cases hc : n ≤ 2 * i + 1
  · rw [if_pos hc]
    unfold down
    cases hni : n - i with
    | zero => rfl
    | succ f =>
      show (if n ≤ 2 * i + 1 then l else _) = l
      rw [if_pos hc]
  · rw [if_neg hc]
    have hdb := downChild_bounds less l i n (by omega)
    obtain ⟨f, hf⟩ : ∃ f, n - i = f + 1 := ⟨n - i - 1, by omega⟩
    unfold down
    rw [hf]
    show (if n ≤ 2 * i + 1 then l else _) = _
    rw [if_neg hc]
    by_cases hless : less (l.getD (downChild less l i n) 0) (l.getD i 0) = true
    · rw [if_pos hless, if_pos hless]
      exact downGo_congr less f (n - downChild less l i n) _ _ n (by omega) (by omega)
    · rw [if_neg hless, if_neg hless]

theorem up_length (less : Int → Int → Bool) : ∀ (j : Nat) (l : List Int),
    (up less l j).length = l.length := by
  intro j
  induction j using Nat.strong_induction_on with
  | _ j ih =>
    intro l
    rw [up_eq]
    split
    next => rfl
    next hj0 =>
      split
      next => rw [ih _ (by omega), length_swapL]
      next => rfl

theorem up_perm (less : Int → Int → Bool) : ∀ (j : Nat) (l : List Int), j < l.length →
    List.Perm (up less l j) l := by
  intro j
  induction j using Nat.strong_induction_on with
  | _ j ih =>
    intro l hj
    rw [up_eq]
    split
    next => exact List.Perm.refl l
    next hj0 =>
      split
      next hless =>
        refine List.Perm.trans (ih _ (by omega) _ ?_) (perm_swapL l _ j (by omega) hj)
        rw [length_swapL]
        omega
      next => exact List.Perm.refl l

theorem down_length (less : Int → Int → Bool) : ∀ (m i n : Nat) (l : List Int), n - i ≤ m →
    (down less l i n).length = l.length := by
  intro m
  induction m with
  | zero =>
    intro i n l hm
    rw [down_eq]
    split
    next => rfl
    next hni => omega
  | succ m ihm =>
    intro i n l hm
    rw [down_eq]
    split
    next => rfl
    next hni =>
      split
      next hless =>
        have hdb := downChild_bounds less l i n (by omega)
        rw [ihm (downChild less l i n) n _ (by omega), length_swapL]
      next => rfl

theorem down_perm (less : Int → Int → Bool) : ∀ (m i n : Nat) (l : List Int), n - i ≤ m →
    n ≤ l.length → List.Perm (down less l i n) l := by
  intro m
  induction m with
  | zero =>
    intro i n l hm hn
    rw [down_eq]
    split
    next => exact List.Perm.refl l
    next hni => omega
  | succ m ihm =>
    intro i n l hm hn
    rw [down_eq]
    split
    next => exact List.Perm.refl l
    next hni =>
      split
      next hless =>
        have hdb := downChild_bounds less l i n (by omega)
        refine List.Perm.trans
          (ihm (downChild less l i n) n _ (by omega) (by rw [length_swapL]; exact hn))
          (perm_swapL l i _ (by omega) (by omega))
      next => exact List.Perm.refl l

theorem down_getD_ge (less : Int → Int → Bool) : ∀ (m i n : Nat) (l : List Int), n - i ≤ m →
    ∀ k, n ≤ k → (down less l i n).getD k 0 = l.getD k 0 := by
  intro m
  induction m with
  | zero =>
    intro i n l hm
    rw [down_eq]
    split
    next => intro k _; rfl
    next hni => omega
  | succ m ihm =>
    intro i n l hm
    rw [down_eq]
    split
    next => intro k _; rfl
    next hni =>
      split
      next hless =>
        intro k hk
        have hdb := downChild_bounds less l i n (by omega)
        rw [ihm (downChild less l i n) n _ (by omega) k hk]
        exact getD_swapL_other l i _ k (by omega) (by omega)
      next => intro k _; rfl

/-- Sift-up restores the heap invariant: if every parent/child edge except
the one into `j` holds, and the children of `j` already dominate the parent
of `j`, then `up` yields a heap. -/
theorem up_heapProp (less : Int → Int → Bool)
    (hirr : ∀ a, less a a = false)
    (htt : ∀ a b c, less b a = false → less c b = false → less c a = false)
    (hmt : ∀ a b c, less a b = true → less c b = false → less c a = false) :
    ∀ (j : Nat) (l : List Int), j < l.length →
    (∀ p k, (k = 2 * p + 1 ∨ k = 2 * p + 2) → k < l.length → k ≠ j →
      less (l.getD k 0) (l.getD p 0) = false) →
    (∀ k, (k = 2 * j + 1 ∨ k = 2 * j + 2) → k < l.length → 0 < j →
      less (l.getD k 0) (l.getD ((j - 1) / 2) 0) = false) →
    heapProp less (up less l j) := by
  intro j
  induction j using Nat.strong_induction_on with
  | _ j ih =>
    intro l hj hH hG
    rw [up_eq]
    split
    next hj0 =>
      subst hj0
      intro p k hpk hk
      exact hH p k hpk hk (by omega)
    next hj0 =>
      split
      next hless =>
        refine ih ((j - 1) / 2) (by omega) (swapL l ((j - 1) / 2) j) ?_ ?_ ?_
        · rw [length_swapL]; omega
        · intro p k hpk hk hki
          rw [length_swapL] at hk
          by_cases hkj : k = j
          · have hp : p = (j - 1) / 2 := by omega
            subst hkj; subst hp
            rw [getD_swapL_snd l _ k hk, getD_swapL_fst l _ k (by omega) (by omega)]
            exact less_asym less hirr hmt hless
          · rw [getD_swapL_other l _ j k hki hkj]
            by_cases hpi : p = (j - 1) / 2
            · subst hpi
              rw [getD_swapL_fst l _ j (by omega) (by omega)]
              exact hmt _ _ _ hless (hH _ k hpk hk hkj)
            · by_cases hpj : p = j
              · subst hpj
                rw [getD_swapL_snd l _ p (by omega)]
                exact hG k hpk hk (by omega)
              · rw [getD_swapL_other l _ j p hpi hpj]
                exact hH p k hpk hk hkj
        · intro k hk hklen hipos
          rw [length_swapL] at hklen
          have hgi : ((j - 1) / 2 - 1) / 2 ≠ (j - 1) / 2 := by omega
          have hgj : ((j - 1) / 2 - 1) / 2 ≠ j := by omega
          rw [getD_swapL_other l _ j _ hgi hgj]
          by_cases hkj : k = j
          · subst hkj
            rw [getD_swapL_snd l _ k (by omega)]
            exact hH (((k - 1) / 2 - 1) / 2) ((k - 1) / 2) (by omega) (by omega) (by omega)
          · have hki : k ≠ (j - 1) / 2 := by omega
            rw [getD_swapL_other l _ j k hki hkj]
            exact htt _ _ _
              (hH (((j - 1) / 2 - 1) / 2) ((j - 1) / 2) (by omega) (by omega) (by omega))
              (hH ((j - 1) / 2) k hk hklen hkj)
      next hless =>
        intro p k hpk hk
        by_cases hkj : k = j
        · have hp : p = (j - 1) / 2 := by omega
          subst hkj; subst hp
          simpa using hless
        · exact hH p k hpk hk hkj

/-- Sift-down restores the heap invariant on the prefix of length `n`: if
every edge except those out of `i` holds, and the children of `i` already
dominate the parent of `i`, then `down` yields a heap on the prefix. -/
theorem down_heapProp (less : Int → Int → Bool)
    (hirr : ∀ a, less a a = false)
    (htt : ∀ a b c, less b a = false → less c b = false → less c a = false)
    (hmt : ∀ a b c, less a b = true → less c b = false → less c a = false) :
    ∀ (m i n : Nat) (l : List Int), n - i ≤ m → n ≤ l.length →
    (∀ p k, (k = 2 * p + 1 ∨ k = 2 * p + 2) → k < n → p ≠ i →
      less (l.getD k 0) (l.getD p 0) = false) →
    (∀ k, (k = 2 * i + 1 ∨ k = 2 * i + 2) → k < n → 0 < i →
      less (l.getD k 0) (l.getD ((i - 1) / 2) 0) = false) →
    heapPropN less (down less l i n) n := by
  intro m
  induction m with
  | zero =>
    intro i n l hm hn hH hG
    rw [down_eq]
    split
    next hni =>
      intro p k hpk hk
      by_cases hpi : p = i
      · subst hpi; omega
      · exact hH p k hpk hk hpi
    next hni => omega
  | succ m ihm =>
    intro i n l hm hn hH hG
    rw [down_eq]
    split
    next hni =>
      intro p k hpk hk
      by_cases hpi : p = i
      · subst hpi; omega
      · exact hH p k hpk hk hpi
    next hni =>
      have hdb := downChild_bounds less l i n (by omega)
      have hsel : ∀ k, (k = 2 * i + 1 ∨ k = 2 * i + 2) → k < n →
          less (l.getD k 0) (l.getD (downChild less l i n) 0) = false := by
        intro k hk hkn
        unfold downChild
        split
        next hc =>
          rcases hk with hk | hk
          · subst hk; exact less_asym less hirr hmt hc.2
          · subst hk; exact hirr _
        next hc =>
          rcases hk with hk | hk
          · subst hk; exact hirr _
          · subst hk
            have hx : ¬ less (l.getD (2 * i + 2) 0) (l.getD (2 * i + 1) 0) = true :=
              fun hx => hc ⟨by omega, hx⟩
            simpa using hx
      split
      next hless =>
        refine ihm (downChild less l i n) n (swapL l i (downChild less l i n)) (by omega)
          (by rw [length_swapL]; exact hn) ?_ ?_
        · intro p k hpk hk hpj
          by_cases hpi : p = i
          · subst hpi
            by_cases hkj : k = downChild less l p n
            · subst hkj
              rw [getD_swapL_snd l p _ (by omega), getD_swapL_fst l p _ (by omega) (by omega)]
              exact less_asym less hirr hmt hless
            · rw [getD_swapL_fst l p _ (by omega) (by omega),
                  getD_swapL_other l p _ k (by omega) hkj]
              exact hsel k hpk hk
          · by_cases hki : k = i
            · subst hki
              have hkpos : 0 < k := by omega
              have hp : p = (k - 1) / 2 := by omega
              subst hp
              rw [getD_swapL_fst l k _ (by omega) (by omega),
                  getD_swapL_other l k _ _ (by omega) (by omega)]
              exact hG (downChild less l k n) (downChild_cases less l k n) (by omega) hkpos
            · by_cases hkj : k = downChild less l i n
              · exfalso
                rcases downChild_cases less l i n with hd | hd <;> omega
              · rw [getD_swapL_other l i _ k hki hkj, getD_swapL_other l i _ p hpi hpj]
                exact hH p k hpk hk hpi
        · intro k hk hkn hjpos
          have hji : (downChild less l i n - 1) / 2 = i := by
            rcases downChild_cases less l i n with hd | hd <;> omega
          rw [hji]
          rw [getD_swapL_fst l i _ (by omega) (by omega),
              getD_swapL_other l i _ k (by omega) (by omega)]
          exact hH (downChild less l i n) k hk hkn (by omega)
      next hless =>
        intro p k hpk hk
        by_cases hpi : p = i
        · subst hpi
          have h2 : less (l.getD (downChild less l p n) 0) (l.getD p 0) = false := by
            simpa using hless
          exact htt _ _ _ h2 (hsel k hpk hk)
        · exact hH p k hpk hk hpi

/-! ### Theorems: heapPush and heapPop specifications -/

theorem length_heapPush (less : Int → Int → Bool) (l : List Int) (x : Int) :
    (heapPush less l x).length = l.length + 1 := by
  unfold heapPush
  rw [up_length]
  simp

theorem perm_heapPush (less : Int → Int → Bool) (l : List Int) (x : Int) :
    List.Perm (heapPush less l x) (x :: l) := by
  unfold heapPush
  refine List.Perm.trans (up_perm less _ _ ?_) (by simpa using List.perm_append_singleton x l)
  simp

theorem heapPush_heapProp (less : Int → Int → Bool)
    (hirr : ∀ a, less a a = false)
    (htt : ∀ a b c, less b a = false → less c b = false → less c a = false)
    (hmt : ∀ a b c, less a b = true → less c b = false → less c a = false)
    (l : List Int) (x : Int) (hp : heapProp less l) :
    heapProp less (heapPush less l x) := by
  unfold heapPush
  have hlen : (l ++ [x]).length = l.length + 1 := by simp
  refine up_heapProp less hirr htt hmt _ _ (by omega) ?_ ?_
  · intro p k hpk hk hkj
    have hkl : k < l.length := by omega
    rw [getD_append_left _ _ k hkl, getD_append_left _ _ p (by omega)]
    exact hp p k hpk hkl
  · intro k hk hklen _
    omega

theorem heapPop_eq_none (less : Int → Int → Bool) (l : List Int) :
    heapPop less l = none ↔ l = [] := by
  cases l <;> simp [heapPop]

theorem heapPop_spec (less : Int → Int → Bool)
    (hirr : ∀ a, less a a = false)
    (htt : ∀ a b c, less b a = false → less c b = false → less c a = false)
    (hmt : ∀ a b c, less a b = true → less c b = false → less c a = false)
    (l : List Int) (hne : l ≠ []) (hp : heapProp less l) :
    ∃ h', heapPop less l = some (l.getD 0 0, h') ∧ h'.length = l.length - 1 ∧
      List.Perm ((l.getD 0 0) :: h') l ∧ heapProp less h' := by
  have hlen : 0 < l.length := List.length_pos.mpr hne
  obtain ⟨a, rest, rfl⟩ : ∃ a rest, l = a :: rest := by
    cases l with
    | nil => exact absurd rfl hne
    | cons a rest => exact ⟨a, rest, rfl⟩
  set l := a :: rest with hl
  set n := l.length - 1 with hn
  have hnlt : n < l.length := by simp [hn, hl]
  set l1 := swapL l 0 n with hl1
  have hl1len : l1.length = l.length := length_swapL l 0 n
  set l2 := down less l1 0 n with hl2
  have hl2len : l2.length = l.length := by
    rw [hl2, down_length less n 0 n l1 (by omega)]
    exact hl1len
  have hret : l2.getD n 0 = l.getD 0 0 := by
    rw [hl2, down_getD_ge less n 0 n l1 (by omega) n (by omega)]
    exact getD_swapL_snd l 0 n hnlt
  have hpop : heapPop less l = some (l2.getD n 0, l2.take n) := by
    rw [hl]
    unfold heapPop
    rfl
  have hperm2 : List.Perm l2 l := by
    rw [hl2]
    refine List.Perm.trans (down_perm less n 0 n l1 (by omega) (by omega)) ?_
    exact perm_swapL l 0 n (by omega) hnlt
  have hsplit : l2 = l2.take n ++ [l2.getD n 0] := by
    have hd : l2.drop n = [l2.getD n 0] := drop_last_of_length l2 n (by omega)
    conv_lhs => rw [← List.take_append_drop n l2]
    rw [hd]
  refine ⟨l2.take n, ?_, ?_, ?_, ?_⟩
  · rw [hpop, hret]
  · rw [List.length_take]
    omega
  · rw [← hret]
    refine List.Perm.trans ?_ hperm2
    conv_rhs => rw [hsplit]
    exact (List.perm_append_singleton _ _).symm
  · have hPN : heapPropN less l2 n := by
      rw [hl2]
      refine down_heapProp less hirr htt hmt n 0 n l1 (by omega) (by omega) ?_ ?_
      · intro p k hpk hk hp0
        rw [hl1, getD_swapL_other l 0 n k (by omega) (by omega),
            getD_swapL_other l 0 n p (by omega) (by omega)]
        exact hp p k hpk (by omega)
      · intro k hk hkn h0
        omega
    intro p k hpk hk
    rw [List.length_take] at hk
    rw [getD_take l2 n k (by omega), getD_take l2 n p (by omega)]
    exact hPN p k hpk (by omega)

/-- The root of a heap dominates every entry. -/
theorem heapProp_root_min (less : Int → Int → Bool)
    (hirr : ∀ a, less a a = false)
    (htt : ∀ a b c, less b a = false → less c b = false → less c a = false)
    (l : List Int) (hp : heapProp less l) :
    ∀ k, k < l.length → less (l.getD k 0) (l.getD 0 0) = false := by
  intro k
  induction k using Nat.strong_induction_on with
  | _ k ih =>
    intro hk
    rcases Nat.eq_zero_or_pos k with h0 | hpos
    · subst h0
      exact hirr _
    · have hc : k = 2 * ((k - 1) / 2) + 1 ∨ k = 2 * ((k - 1) / 2) + 2 := by omega
      exact htt _ _ _ (ih ((k - 1) / 2) (by omega) (by omega)) (hp _ k hc hk)

/-- Membership form of `heapProp_root_min`. -/
theorem heapProp_root_min_mem (less : Int → Int → Bool)
    (hirr : ∀ a, less a a = false)
    (htt : ∀ a b c, less b a = false → less c b = false → less c a = false)
    (l : List Int) (hp : heapProp less l) :
    ∀ y ∈ l, less y (l.getD 0 0) = false := by
  intro y hy
  obtain ⟨k, hk, he⟩ := List.mem_iff_getElem.mp hy
  rw [← he, ← List.getD_eq_getElem l 0 hk]
  exact heapProp_root_min less hirr htt l hp k hk

/-- The executable check `heapPropD` decides `heapProp`. -/
theorem heapProp_iff (less : Int → Int → Bool) (l : List Int) :
    heapProp less l ↔ heapPropD less l = true := by
  constructor
  · intro hp
    unfold heapPropD
    rw [List.all_eq_true]
    intro j hj
    rw [List.mem_range] at hj
    by_cases h0 : j = 0
    · simp [h0]
    · have hc : j = 2 * ((j - 1) / 2) + 1 ∨ j = 2 * ((j - 1) / 2) + 2 := by omega
      simp only [Bool.or_eq_true, beq_iff_eq, Bool.not_eq_true']
      exact Or.inr (hp _ j hc hj)
  · intro hd p k hpk hk
    unfold heapPropD at hd
    rw [List.all_eq_true] at hd
    have hk2 := hd k (List.mem_range.mpr hk)
    simp only [Bool.or_eq_true, beq_iff_eq, Bool.not_eq_true'] at hk2
    rcases hk2 with h0 | hline
    · omega
    · have hpk2 : p = (k - 1) / 2 := by omega
      rw [hpk2]
      exact hline

/-! ### Theorems: TimeoutChan machinery -/

theorem heapPop_some_shape (less : Int → Int → Bool) (l : List Int) (x : Int)
    (h' : List Int) (h : heapPop less l = some (x, h')) :
    h'.length = l.length - 1 ∧ l ≠ [] := by
  cases l with
  | nil => simp [heapPop] at h
  | cons a rest =>
    unfold heapPop at h
    simp only [Option.some_inj, Prod.mk.injEq] at h
    refine ⟨?_, by simp⟩
    rw [← h.2, List.length_take,
        down_length less ((a :: rest).length - 1) 0 ((a :: rest).length - 1) _ (by omega),
        length_swapL]
    simp

theorem getD_zero_mem (l : List Int) (h : l ≠ []) : l.getD 0 0 ∈ l := by
  cases l with
  | nil => exact absurd rfl h
  | cons a rest => simp

/-- Under the heap invariant, one emission pops the current minimum, appends
it to the output history, bumps `popped`, and resumes the push process
exactly when the heap was at a positive limit. -/
theorem emitStep_spec (c : TimeoutChan) (hne : c.pq.length ≠ 0) (hp : heapProp lt c.pq) :
    ∃ h', c.emitStep =
      { c with
        pq := h', popped := c.popped + 1,
        out := c.out ++ [c.pq.getD 0 0],
        pushSuspended :=
          if 0 < c.limit ∧ c.pq.length = c.limit then false else c.pushSuspended } ∧
      h'.length = c.pq.length - 1 ∧ List.Perm ((c.pq.getD 0 0) :: h') c.pq ∧
      heapProp lt h' := by
  obtain ⟨h', hpop, hlen, hperm, hprop⟩ :=
    heapPop_spec lt lt_irr lt_twotrans lt_mixtrans c.pq
      (fun he => hne (by rw [he]; rfl)) hp
  refine ⟨h', ?_, hlen, hperm, hprop⟩
  unfold TimeoutChan.emitStep TimeoutChan.pop
  rw [hpop]
  by_cases hcond : 0 < c.limit ∧ c.pq.length = c.limit
  · simp [hcond]
  · simp [hcond]

theorem emitStep_limit (c : TimeoutChan) : (c.emitStep).limit = c.limit := by
  unfold TimeoutChan.emitStep TimeoutChan.pop
  cases hm : heapPop lt c.pq with
  | none => rfl
  | some v =>
    cases v with
    | mk x h' => rfl

theorem emitStep_resolution (c : TimeoutChan) : (c.emitStep).resolution = c.resolution := by
  unfold TimeoutChan.emitStep TimeoutChan.pop
  cases hm : heapPop lt c.pq with
  | none => rfl
  | some v =>
    cases v with
    | mk x h' => rfl

theorem step_limit {fut : Bool} {a b : TimeoutChan} (h : Step fut a b) :
    b.limit = a.limit := by
  cases h with
  | advance t ht => rfl
  | directPush d h0 hf => rfl
  | intakePush d hsusp hf => rfl
  | emit hne hd => exact emitStep_limit a
  | clearStep => rfl

theorem step_resolution {fut : Bool} {a b : TimeoutChan} (h : Step fut a b) :
    b.resolution = a.resolution := by
  cases h with
  | advance t ht => rfl
  | directPush d h0 hf => rfl
  | intakePush d hsusp hf => rfl
  | emit hne hd => exact emitStep_resolution a
  | clearStep => rfl

theorem inv_init (res : Int) (L : Nat) (t0 : Int) : (NewTimeoutChan res L t0).Inv := by
  refine ⟨?_, rfl, rfl, ?_⟩
  · intro p k hpk hk
    simp [NewTimeoutChan] at hk
  · intro hL
    exact ⟨fun h => by simp [NewTimeoutChan] at h, fun _ => by simpa [NewTimeoutChan] using hL⟩

theorem inv_step {fut : Bool} {a b : TimeoutChan} (hs : Step fut a b) (hi : a.Inv) :
    b.Inv := by
  obtain ⟨hheap, hcnt, hout, hflag⟩ := hi
  cases hs with
  | advance t ht => exact ⟨hheap, hcnt, hout, hflag⟩
  | directPush d h0 hf =>
    refine ⟨heapPush_heapProp lt lt_irr lt_twotrans lt_mixtrans _ _ hheap, ?_, hout, ?_⟩
    · simp only [TimeoutChan.push, length_heapPush]
      omega
    · intro hlim
      rw [show (a.push d).1.limit = a.limit from rfl, h0] at hlim
      omega
  | intakePush d hsusp hf =>
    refine ⟨heapPush_heapProp lt lt_irr lt_twotrans lt_mixtrans _ _ hheap, ?_, hout, ?_⟩
    · simp only [TimeoutChan.intakeStep, TimeoutChan.push, length_heapPush]
      omega
    · intro hlim
      have hlim' : 0 < a.limit := hlim
      have hlt : a.pq.length < a.limit := (hflag hlim').2 hsusp
      have hlen : (a.intakeStep d).pq.length = a.pq.length + 1 := by
        simp [TimeoutChan.intakeStep, TimeoutChan.push, length_heapPush]
      constructor
      · intro htrue
        simp only [TimeoutChan.intakeStep] at htrue
        split at htrue
        · exact absurd htrue (by simp)
        · next hcond =>
          simp only [TimeoutChan.push, length_heapPush] at hcond
          rw [hlen]
          simp only [TimeoutChan.intakeStep, TimeoutChan.push, length_heapPush]
          omega
      · intro hfalse
        simp only [TimeoutChan.intakeStep] at hfalse
        split at hfalse
        · next hcond =>
          rw [hlen]
          rcases hcond with h | h
          · omega
          · simpa [TimeoutChan.push, length_heapPush] using h
        · exact absurd hfalse (by simp)
  | emit hne hd =>
    obtain ⟨h', heq, hlen, hperm, hprop⟩ := emitStep_spec a hne hheap
    have e1 : (a.emitStep).pq = h' := by rw [heq]
    have e2 : (a.emitStep).pushed = a.pushed := by rw [heq]
    have e3 : (a.emitStep).popped = a.popped + 1 := by rw [heq]
    have e4 : (a.emitStep).cleared = a.cleared := by rw [heq]
    have e5 : (a.emitStep).out = a.out ++ [a.pq.getD 0 0] := by rw [heq]
    have e6 : (a.emitStep).pushSuspended =
        if 0 < a.limit ∧ a.pq.length = a.limit then false else a.pushSuspended := by
      rw [heq]
    have e7 : (a.emitStep).limit = a.limit := emitStep_limit a
    refine ⟨by rw [e1]; exact hprop, ?_, ?_, ?_⟩
    · rw [e1, e2, e3, e4, hlen]
      omega
    · rw [e3, e5, List.length_append, List.length_cons, List.length_nil]
      omega
    · rw [e1, e6, e7]
      intro hlim
      by_cases hcond : 0 < a.limit ∧ a.pq.length = a.limit
      · rw [if_pos hcond]
        refine ⟨fun h => by simp at h, fun _ => ?_⟩
        rw [hlen]
        omega
      · rw [if_neg hcond]
        constructor
        · intro htrue
          exact absurd ⟨hlim, (hflag hlim).1 htrue⟩ hcond
        · intro hfalse
          have := (hflag hlim).2 hfalse
          rw [hlen]
          omega
  | clearStep =>
    refine ⟨?_, ?_, hout, ?_⟩
    · intro p k hpk hk
      simp [TimeoutChan.Clear] at hk
    · simp only [TimeoutChan.Clear, List.length_nil]
      omega
    · intro hlim
      exact ⟨fun h => by simp [TimeoutChan.Clear] at h, fun _ => by simpa using hlim⟩

theorem reach_inv {fut : Bool} {res : Int} {L : Nat} {t0 : Int} {c : TimeoutChan}
    (hr : Reach fut (NewTimeoutChan res L t0) c) : c.Inv := by
  induction hr with
  | refl => exact inv_init res L t0
  | tail hr hs ih => exact inv_step hs ih

theorem reach_limit {fut : Bool} {res : Int} {L : Nat} {t0 : Int} {c : TimeoutChan}
    (hr : Reach fut (NewTimeoutChan res L t0) c) : c.limit = L := by
  induction hr with
  | refl => rfl
  | tail hr hs ih => rw [step_limit hs, ih]

theorem ordInv_init (res : Int) (L : Nat) (t0 : Int) : (NewTimeoutChan res L t0).OrdInv := by
  refine ⟨?_, ?_, ?_⟩ <;> simp [NewTimeoutChan, TimeoutChan.OrdInv]

theorem ordInv_step {a b : TimeoutChan} (hs : Step true a b) (hheap : heapProp lt a.pq)
    (ho : a.OrdInv) : b.OrdInv := by
  obtain ⟨hpw, hnow, hrel⟩ := ho
  cases hs with
  | advance t ht =>
    refine ⟨hpw, ?_, hrel⟩
    intro x hx
    have := hnow x hx
    simp only []
    omega
  | directPush d h0 hf =>
    refine ⟨hpw, hnow, ?_⟩
    intro x hx y hy
    have hy2 : y ∈ d :: a.pq := (perm_heapPush lt a.pq d).mem_iff.mp hy
    rcases List.mem_cons.mp hy2 with rfl | hy3
    · exact le_trans (hnow x hx) (hf rfl)
    · exact hrel x hx y hy3
  | intakePush d hsusp hf =>
    refine ⟨hpw, hnow, ?_⟩
    intro x hx y hy
    have hy2 : y ∈ d :: a.pq := (perm_heapPush lt a.pq d).mem_iff.mp hy
    rcases List.mem_cons.mp hy2 with rfl | hy3
    · exact le_trans (hnow x hx) (hf rfl)
    · exact hrel x hx y hy3
  | emit hne hd =>
    obtain ⟨h', heq, hlen, hperm, hprop⟩ := emitStep_spec a hne hheap
    have hroot : a.pq.getD 0 0 ∈ a.pq :=
      getD_zero_mem a.pq (fun he => hne (by rw [he]; rfl))
    have e1 : (a.emitStep).pq = h' := by rw [heq]
    have e5 : (a.emitStep).out = a.out ++ [a.pq.getD 0 0] := by rw [heq]
    have e8 : (a.emitStep).now = a.now := by rw [heq]
    refine ⟨?_, ?_, ?_⟩
    · rw [e5, List.pairwise_append]
      refine ⟨hpw, List.pairwise_singleton _ _, ?_⟩
      intro x hx y hy
      rw [List.mem_singleton] at hy
      subst hy
      exact hrel x hx _ hroot
    · rw [e5, e8]
      intro x hx
      rcases List.mem_append.mp hx with hx2 | hx2
      · exact hnow x hx2
      · rw [List.mem_singleton] at hx2
        subst hx2
        exact hd
    · rw [e5, e1]
      intro x hx y hy
      have hy2 : y ∈ a.pq := hperm.mem_iff.mp (List.mem_cons_of_mem _ hy)
      rcases List.mem_append.mp hx with hx2 | hx2
      · exact hrel x hx2 y hy2
      · rw [List.mem_singleton] at hx2
        subst hx2
        have := heapProp_root_min_mem lt lt_irr lt_twotrans a.pq hheap y hy2
        simp only [lt, decide_eq_false_iff_not] at this
        omega
  | clearStep =>
    refine ⟨hpw, hnow, ?_⟩
    intro x hx y hy
    simp [TimeoutChan.Clear] at hy

theorem reach_ordInv {res : Int} {L : Nat} {t0 : Int} {c : TimeoutChan}
    (hr : Reach true (NewTimeoutChan res L t0) c) : c.OrdInv := by
  induction hr with
  | refl => exact ordInv_init res L t0
  | tail hr hs ih =>
    exact ordInv_step hs (reach_inv hr).1 ih

theorem drainN_spec : ∀ (n : Nat) (c : TimeoutChan), c.pq.length = n → heapProp lt c.pq →
    (TimeoutChan.drainN n c).pq.length = 0 ∧
    (TimeoutChan.drainN n c).out.length = c.out.length + n ∧
    (TimeoutChan.drainN n c).pushed = c.pushed ∧
    (TimeoutChan.drainN n c).cleared = c.cleared ∧
    (TimeoutChan.drainN n c).popped = c.popped + n := by
  intro n
  induction n with
  | zero =>
    intro c h0 _
    exact ⟨h0, by simp [TimeoutChan.drainN], rfl, rfl, rfl⟩
  | succ n ih =>
    intro c hlen hp
    obtain ⟨h', heq, hlen', hperm, hprop⟩ := emitStep_spec c (by omega) hp
    have e1 : (c.emitStep).pq = h' := by rw [heq]
    have e2 : (c.emitStep).pushed = c.pushed := by rw [heq]
    have e3 : (c.emitStep).popped = c.popped + 1 := by rw [heq]
    have e4 : (c.emitStep).cleared = c.cleared := by rw [heq]
    have e5 : (c.emitStep).out = c.out ++ [c.pq.getD 0 0] := by rw [heq]
    have hnext := ih c.emitStep (by rw [e1]; omega) (by rw [e1]; exact hprop)
    have hun : TimeoutChan.drainN (n + 1) c = TimeoutChan.drainN n c.emitStep := rfl
    rw [hun]
    refine ⟨hnext.1, ?_, ?_, ?_, ?_⟩
    · rw [hnext.2.1, e5, List.length_append, List.length_cons, List.length_nil]
      omega
    · rw [hnext.2.2.1, e2]
    · rw [hnext.2.2.2.1, e4]
    · rw [hnext.2.2.2.2, e3]
      omega

/-! ### Theorems: PriorityQueue comparator facts -/

theorem qless_irr (q : PriorityQueue) : ∀ a, q.less a a = false := by
  unfold PriorityQueue.less
  split
  · exact ge_irr
  · exact lt_irr

theorem qless_twotrans (q : PriorityQueue) :
    ∀ a b c, q.less b a = false → q.less c b = false → q.less c a = false := by
  unfold PriorityQueue.less
  split
  · exact ge_twotrans
  · exact lt_twotrans

theorem qless_mixtrans (q : PriorityQueue) :
    ∀ a b c, q.less a b = true → q.less c b = false → q.less c a = false := by
  unfold PriorityQueue.less
  split
  · exact ge_mixtrans
  · exact lt_mixtrans

/-- C7: on every `PriorityQueue` satisfying the heap invariant, `pop` of a
non-empty queue removes and returns the extreme item — minimal priority in
ascending mode (`desc = false`), maximal in descending mode — and decreases
the length by one; `pop` of an empty queue is the fault modelled by `none`
(an index-out-of-range panic in the original), not a recoverable error
value. -/
theorem priorityQueue_pop_spec (q : PriorityQueue) (hq : heapProp q.less q.heap) :
    (q.heap = [] → q.pop = none) ∧
    (q.heap ≠ [] → ∃ x q', q.pop = some (x, q') ∧
      q'.heap.length = q.heap.length - 1 ∧ q'.desc = q.desc ∧
      List.Perm (x :: q'.heap) q.heap ∧
      (∀ y ∈ q.heap, if q.desc then y ≤ x else x ≤ y)) := by
  constructor
  · intro he
    unfold PriorityQueue.pop
    rw [he]
    rfl
  · intro hne
    obtain ⟨h', hpop, hlen, hperm, hprop⟩ :=
      heapPop_spec q.less (qless_irr q) (qless_twotrans q) (qless_mixtrans q) q.heap hne hq
    refine ⟨q.heap.getD 0 0, { q with heap := h' }, ?_, hlen, rfl, hperm, ?_⟩
    · unfold PriorityQueue.pop
      rw [hpop]
    · intro y hy
      have hmin := heapProp_root_min_mem q.less (qless_irr q) (qless_twotrans q)
        q.heap hq y hy
      unfold PriorityQueue.less at hmin
      cases hdesc : q.desc
      · rw [hdesc] at hmin
        simp [lt] at hmin
        simp [hdesc]
        omega
      · rw [hdesc] at hmin
        simp [ge] at hmin
        simp [hdesc]
        omega

/-- C7 witness: evaluating `priorityQueue_pop_spec` on the ascending queue
backed by `[1, 3, 2]` (a valid heap) and discharging its hypothesis by
computation. -/
theorem priorityQueue_pop_spec_witness :
    (((⟨[1, 3, 2], false⟩ : PriorityQueue).heap = [] →
      (⟨[1, 3, 2], false⟩ : PriorityQueue).pop = none) ∧
    ((⟨[1, 3, 2], false⟩ : PriorityQueue).heap ≠ [] →
      ∃ x q', (⟨[1, 3, 2], false⟩ : PriorityQueue).pop = some (x, q') ∧
        q'.heap.length = (⟨[1, 3, 2], false⟩ : PriorityQueue).heap.length - 1 ∧
        q'.desc = (⟨[1, 3, 2], false⟩ : PriorityQueue).desc ∧
        List.Perm (x :: q'.heap) (⟨[1, 3, 2], false⟩ : PriorityQueue).heap ∧
        (∀ y ∈ (⟨[1, 3, 2], false⟩ : PriorityQueue).heap,
          if (⟨[1, 3, 2], false⟩ : PriorityQueue).desc then y ≤ x else x ≤ y))) :=
  priorityQueue_pop_spec ⟨[1, 3, 2], false⟩
    ((heapProp_iff (⟨[1, 3, 2], false⟩ : PriorityQueue).less [1, 3, 2]).mpr (by decide))

/-! ### Theorems: TimeoutChan claims -/

/-- C1 counterexample: the claim as stated — on an unbounded TimeoutChan the
output stream is non-decreasing by deadline over every complete run — is
false.  The refuting run pushes deadline 5, lets it elapse and be emitted at
time 5, then pushes deadline 3 (already elapsed at push time): the output
history is `[5, 3]`. -/
theorem timeoutChan_unbounded_order_cex :
    ¬ (∀ c : TimeoutChan, Reach false (NewTimeoutChan 100 0 0) c →
        List.Pairwise (fun a b : Int => a ≤ b) c.out) := by
  intro hclaim
  have h1 : Step false (NewTimeoutChan 100 0 0) ((NewTimeoutChan 100 0 0).push 5).1 :=
    Step.directPush _ 5 rfl (fun h => absurd h (by decide))
  have h2 : Step false ((NewTimeoutChan 100 0 0).push 5).1
      { ((NewTimeoutChan 100 0 0).push 5).1 with
        now := ((NewTimeoutChan 100 0 0).push 5).1.now + 5 } :=
    Step.advance _ 5 (by decide)
  have h3 := @Step.emit false
    { ((NewTimeoutChan 100 0 0).push 5).1 with
      now := ((NewTimeoutChan 100 0 0).push 5).1.now + 5 }
    (by decide) (by decide)
  have h4 := @Step.directPush false
    ({ ((NewTimeoutChan 100 0 0).push 5).1 with
       now := ((NewTimeoutChan 100 0 0).push 5).1.now + 5 }.emitStep)
    3 (by decide) (fun h => absurd h (by decide))
  have h5 := @Step.emit false
    (({ ((NewTimeoutChan 100 0 0).push 5).1 with
        now := ((NewTimeoutChan 100 0 0).push 5).1.now + 5 }.emitStep).push 3).1
    (by decide) (by decide)
  have hreach := Reach.tail (Reach.tail (Reach.tail (Reach.tail (Reach.tail
    Reach.refl h1) h2) h3) h4) h5
  exact absurd (hclaim _ hreach) (by decide)

/-- C1 (amended): for an unbounded TimeoutChan (limit 0), over any complete
run in which no pushed item's deadline has already elapsed at the time of
its push, the output stream is non-decreasing by deadline: the release
process never emits an item whose deadline precedes that of a previously
emitted item. -/
theorem timeoutChan_unbounded_order (res t0 : Int) (c : TimeoutChan)
    (hr : Reach true (NewTimeoutChan res 0 t0) c) :
    List.Pairwise (fun a b : Int => a ≤ b) c.out :=
  (reach_ordInv hr).1

/-- C1 witness: the Scenario-A style run pushing deadlines 10, 4, 1 at time
0, advancing to 10 and emitting three times; the theorem applies and its
hypothesis is discharged by an explicit reachability derivation. -/
theorem timeoutChan_unbounded_order_witness :
    List.Pairwise (fun a b : Int => a ≤ b)
      ({ ((((NewTimeoutChan 100 0 0).push 10).1.push 4).1.push 1).1 with
         now := ((((NewTimeoutChan 100 0 0).push 10).1.push 4).1.push 1).1.now + 10
       }.emitStep.emitStep.emitStep).out :=
  timeoutChan_unbounded_order 100 0 _
    (Reach.tail (Reach.tail (Reach.tail (Reach.tail (Reach.tail (Reach.tail (Reach.tail
      Reach.refl
      (Step.directPush _ 10 rfl (fun _ => by decide)))
      (Step.directPush _ 4 rfl (fun _ => by decide)))
      (Step.directPush _ 1 rfl (fun _ => by decide)))
      (Step.advance _ 10 (by decide)))
      (Step.emit _ (by decide) (by decide)))
      (Step.emit _ (by decide) (by decide)))
      (Step.emit _ (by decide) (by decide)))

/-- C2: in every reachable TimeoutChan state the pushed counter equals the
popped counter plus the cleared counter plus the number of pending items,
and each of `push`, `pop` and `Clear` preserves this equation. -/
theorem timeoutChan_counter_invariant :
    (∀ (fut : Bool) (res : Int) (L : Nat) (t0 : Int) (c : TimeoutChan),
      Reach fut (NewTimeoutChan res L t0) c → c.CounterEq) ∧
    (∀ (c : TimeoutChan) (d : Int), c.CounterEq → ((c.push d).1).CounterEq) ∧
    (∀ (c c' : TimeoutChan) (x : Int) (ns : List Notice),
      c.CounterEq → c.pop = some (x, c', ns) → c'.CounterEq) ∧
    (∀ c : TimeoutChan, c.CounterEq → ((c.Clear).1).CounterEq) := by
  refine ⟨?_, ?_, ?_, ?_⟩
  · intro fut res L t0 c hr
    exact (reach_inv hr).2.1
  · intro c d h
    unfold TimeoutChan.CounterEq at *
    simp only [TimeoutChan.push, length_heapPush]
    omega
  · intro c c' x ns h hpop
    unfold TimeoutChan.pop at hpop
    cases hm : heapPop lt c.pq with
    | none => rw [hm] at hpop; exact absurd hpop (by simp)
    | some v =>
      obtain ⟨y, h'⟩ := v
      rw [hm] at hpop
      simp only [Option.some_inj, Prod.mk.injEq] at hpop
      obtain ⟨hlen, hne⟩ := heapPop_some_shape lt c.pq y h' hm
      have hlen0 : c.pq.length ≠ 0 := fun h0 => hne (List.length_eq_zero.mp h0)
      unfold TimeoutChan.CounterEq at *
      rw [← hpop.2.1]
      simp only []
      omega
  · intro c h
    unfold TimeoutChan.CounterEq at *
    simp only [TimeoutChan.Clear, List.length_nil]
    omega

/-- C2 witness: the invariant holds in the freshly constructed state (a
reachable state by the empty run) and is preserved by a concrete push. -/
theorem timeoutChan_counter_invariant_witness :
    (NewTimeoutChan 100 0 0).CounterEq ∧ (((NewTimeoutChan 100 2 0).push 7).1).CounterEq :=
  ⟨timeoutChan_counter_invariant.1 false 100 0 0 _ Reach.refl,
   timeoutChan_counter_invariant.2.1 (NewTimeoutChan 100 2 0) 7 rfl⟩

/-- C3: for every bounded TimeoutChan with capacity `L > 0`, in every
reachable state the number of pending items is at most `L`; moreover the
push process is suspended only when the heap is exactly at the limit (it
suspends after the push that reaches the limit and resumes only on a
resume-intake notice, which is how `Step` lets it run again). -/
theorem timeoutChan_bounded_capacity (fut : Bool) (res t0 : Int) (L : Nat)
    (c : TimeoutChan) (hr : Reach fut (NewTimeoutChan res L t0) c) (hL : 0 < L) :
    c.pq.length ≤ L ∧ (c.pushSuspended = true → c.pq.length = L) := by
  have hflag := (reach_inv hr).2.2.2
  rw [reach_limit hr] at hflag
  constructor
  · by_cases hb : c.pushSuspended = true
    · exact le_of_eq ((hflag hL).1 hb)
    · exact le_of_lt ((hflag hL).2 (by simpa using hb))
  · intro hb
    exact (hflag hL).1 hb

/-- C3 witness: a capacity-2 queue after two intake pushes is exactly at its
limit and suspended; the theorem applies to this concrete reachable state. -/
theorem timeoutChan_bounded_capacity_witness :
    (((NewTimeoutChan 100 2 0).intakeStep 5).intakeStep 6).pq.length ≤ 2 ∧
    ((((NewTimeoutChan 100 2 0).intakeStep 5).intakeStep 6).pushSuspended = true →
      (((NewTimeoutChan 100 2 0).intakeStep 5).intakeStep 6).pq.length = 2) :=
  timeoutChan_bounded_capacity false 100 0 2 _
    (Reach.tail (Reach.tail Reach.refl
      (Step.intakePush _ 5 rfl (fun h => absurd h (by decide))))
      (Step.intakePush _ 6 (by decide) (fun h => absurd h (by decide))))
    (by decide)

/-- C4: the notice discipline of the two heap mutations.  A push into an
empty heap fires exactly the resume-release notice; a push whose deadline
strictly precedes the current minimum of a non-empty heap fires exactly the
reschedule notice (the close-and-replace rotation of the channel); any other
push fires nothing.  A pop of a bounded heap at its capacity limit fires
exactly the resume-intake notice; any other pop fires nothing.  Each notice
list is produced by the same atomic function as the mutation, which is the
embedding of the critical section. -/
theorem timeoutChan_notice_discipline :
    (∀ (c : TimeoutChan) (d : Int),
      (c.pq.length = 0 → (c.push d).2 = [Notice.resumePop]) ∧
      (c.pq.length ≠ 0 → lt d (c.pq.getD 0 0) = true → (c.push d).2 = [Notice.reschedule]) ∧
      (c.pq.length ≠ 0 → lt d (c.pq.getD 0 0) = false → (c.push d).2 = [])) ∧
    (∀ (c c' : TimeoutChan) (x : Int) (ns : List Notice), c.pop = some (x, c', ns) →
      (0 < c.limit ∧ c.pq.length = c.limit → ns = [Notice.resumePush]) ∧
      (¬ (0 < c.limit ∧ c.pq.length = c.limit) → ns = [])) := by
  constructor
  · intro c d
    refine ⟨?_, ?_, ?_⟩
    · intro h0
      simp [TimeoutChan.push, h0]
    · intro h0 hlt
      simp only [TimeoutChan.push]
      rw [if_neg h0, if_pos hlt]
    · intro h0 hlt
      simp only [TimeoutChan.push]
      rw [if_neg h0, if_neg (by rw [hlt]; decide)]
  · intro c c' x ns hpop
    unfold TimeoutChan.pop at hpop
    cases hm : heapPop lt c.pq with
    | none => rw [hm] at hpop; exact absurd hpop (by simp)
    | some v =>
      obtain ⟨y, h'⟩ := v
      rw [hm] at hpop
      simp only [Option.some_inj, Prod.mk.injEq] at hpop
      rw [← hpop.2.2]
      constructor
      · intro hcond
        rw [if_pos hcond]
      · intro hcond
        rw [if_neg hcond]

/-- C4 witness: evaluating the notice discipline on concrete states — a push
into an empty heap, a reschedule-triggering push, a silent push, and a pop
at the capacity limit. -/
theorem timeoutChan_notice_discipline_witness :
    ((NewTimeoutChan 100 0 0).push 5).2 = [Notice.resumePop] ∧
    ((((NewTimeoutChan 100 0 0).push 5).1).push 3).2 = [Notice.reschedule] ∧
    ((((NewTimeoutChan 100 0 0).push 5).1).push 7).2 = [] ∧
    (((((NewTimeoutChan 100 1 0).push 5).1).pop.map (fun v => v.2.2)).getD []
      = [Notice.resumePush]) := by
  refine ⟨?_, ?_, ?_, ?_⟩
  · exact ((timeoutChan_notice_discipline.1 (NewTimeoutChan 100 0 0) 5).1 (by decide))
  · exact ((timeoutChan_notice_discipline.1 (((NewTimeoutChan 100 0 0).push 5).1) 3).2.1
      (by decide) (by decide))
  · exact ((timeoutChan_notice_discipline.1 (((NewTimeoutChan 100 0 0).push 5).1) 7).2.2
      (by decide) (by decide))
  · exact ((timeoutChan_notice_discipline.2 (((NewTimeoutChan 100 1 0).push 5).1)
      ⟨100, 1, [], 1, 1, 0, 0, [], false⟩ 5
      (((((NewTimeoutChan 100 1 0).push 5).1).pop.map (fun v => v.2.2)).getD [])
      (by decide)).1 (by decide))

/-- C5 counterexample: the claim as stated — for a pending deadline with
remaining time `delta > 0` the started wait equals the smaller of `delta/2`
and the resolution — is false at `delta = 10`, `resolution = 3`: the code
waits `delta/2 = 5`, not `min (delta/2) resolution = 3`. -/
theorem spinInterval_min_cex :
    (0 : Int) < 10 ∧ spinInterval 10 3 ≠ min ((10 : Int) / 2) 3 := by
  constructor
  · decide
  · decide

/-- C5 (amended): in the release process's working phase, for every peeked
item whose deadline has not elapsed (`delta > 0`), the wait interval started
on the timer equals `delta/2` when that exceeds the resolution, otherwise
the resolution when `delta` exceeds it, otherwise `delta` itself — that is,
`max (delta/2) (min delta resolution)` — and it never exceeds the remaining
time, so the timer never fires past the deadline. -/
theorem spinInterval_spec (delta res : Int) (hd : 0 < delta) :
    spinInterval delta res = max (delta / 2) (min delta res) ∧
    spinInterval delta res ≤ delta := by
  unfold spinInterval
  split
  next h1 => constructor <;> omega
  next h1 =>
    split
    next h2 => constructor <;> omega
    next h2 => constructor <;> omega

/-- C5 witness: the amended wait computation evaluated at `delta = 10`,
`resolution = 3`. -/
theorem spinInterval_spec_witness :
    spinInterval 10 3 = max ((10 : Int) / 2) (min 10 3) ∧ spinInterval 10 3 ≤ 10 :=
  spinInterval_spec 10 3 (by decide)

/-- C6: from any reachable state, the drain performed by `close()` empties
the heap and terminates, and the complete output stream then contains
exactly `pushed - cleared` items (everything pushed and not cleared is
delivered; nothing buffered is discarded). -/
theorem timeoutChan_close_flushes (fut : Bool) (res t0 : Int) (L : Nat)
    (c : TimeoutChan) (hr : Reach fut (NewTimeoutChan res L t0) c) :
    (c.closeDrain).pq.length = 0 ∧
    (c.closeDrain).out.length = c.pushed - c.cleared ∧
    c.cleared ≤ c.pushed := by
  have hi := reach_inv hr
  have hd := drainN_spec c.pq.length c rfl hi.1
  have h1 := hi.2.1
  have h2 := hi.2.2.1
  unfold TimeoutChan.closeDrain
  refine ⟨hd.1, ?_, by omega⟩
  rw [hd.2.1]
  omega

/-- C6 witness: a run that pushes deadlines 5 and 9 and clears nothing; the
drain delivers both items, `2 - 0`. -/
theorem timeoutChan_close_flushes_witness :
    ((((NewTimeoutChan 100 0 0).push 5).1.push 9).1.closeDrain.pq.length = 0 ∧
    (((NewTimeoutChan 100 0 0).push 5).1.push 9).1.closeDrain.out.length =
      (((NewTimeoutChan 100 0 0).push 5).1.push 9).1.pushed -
        (((NewTimeoutChan 100 0 0).push 5).1.push 9).1.cleared ∧
    (((NewTimeoutChan 100 0 0).push 5).1.push 9).1.cleared ≤
      (((NewTimeoutChan 100 0 0).push 5).1.push 9).1.pushed) :=
  timeoutChan_close_flushes false 100 0 0 _
    (Reach.tail (Reach.tail Reach.refl
      (Step.directPush _ 5 rfl (fun h => absurd h (by decide))))
      (Step.directPush _ 9 rfl (fun h => absurd h (by decide))))
/-! ### Theorems: BackgroundController claims -/

theorem derived_frame {a b : BackgroundController} (hd : Derived a b) :
    b.cancel = a.cancel ∧ b.wg = a.wg ∧ b.name = a.name ∧
    b.ctx.cancelToken = a.ctx.cancelToken := by
  induction hd with
  | refl => exact ⟨rfl, rfl, rfl, rfl⟩
  | value k v hd heq ih =>
    unfold BackgroundController.WithValue at heq
    split at heq
    · exact absurd heq (by simp)
    · simp only [Except.ok.injEq] at heq
      rw [← heq]
      exact ⟨ih.1, ih.2.1, ih.2.2.1, ih.2.2.2⟩
  | deadline d hd heq ih =>
    unfold BackgroundController.WithDeadline at heq
    split at heq
    · exact absurd heq (by simp)
    · simp only [Except.ok.injEq] at heq
      rw [← heq]
      exact ⟨ih.1, ih.2.1, ih.2.2.1, ih.2.2.2⟩
  | timeout now t hd heq ih =>
    unfold BackgroundController.WithTimeout at heq
    split at heq
    · exact absurd heq (by simp)
    · simp only [Except.ok.injEq] at heq
      rw [← heq]
      exact ⟨ih.1, ih.2.1, ih.2.2.1, ih.2.2.2⟩

/-- C8: on a handle whose scope is already cancelled (`ctx.Err() != nil`),
each of `GoBackground`, `GoRecoverableBackground`, `WithValue`,
`WithDeadline` and `WithTimeout` fails fatally with that very cancellation
error (a panic, modelled by `Except.error`, never swallowed); when the scope
is not cancelled, none of these calls faults. -/
theorem backgroundController_dead_scope_ops (c : BackgroundController) (e : CtxErr) :
    (c.ctx.err = some e →
      c.GoBackground = Except.error e ∧
      c.GoRecoverableBackground = Except.error e ∧
      (∀ k v, c.WithValue k v = Except.error e) ∧
      (∀ d, c.WithDeadline d = Except.error e) ∧
      (∀ now t, c.WithTimeout now t = Except.error e)) ∧
    (c.ctx.err = none →
      (∃ r, c.GoBackground = Except.ok r) ∧
      (∃ r, c.GoRecoverableBackground = Except.ok r) ∧
      (∀ k v, ∃ r, c.WithValue k v = Except.ok r) ∧
      (∀ d, ∃ r, c.WithDeadline d = Except.ok r) ∧
      (∀ now t, ∃ r, c.WithTimeout now t = Except.ok r)) := by
  constructor
  · intro he
    refine ⟨?_, ?_, ?_, ?_, ?_⟩
    · unfold BackgroundController.GoBackground
      rw [he]
    · unfold BackgroundController.GoRecoverableBackground
      rw [he]
    · intro k v
      unfold BackgroundController.WithValue
      rw [he]
    · intro d
      unfold BackgroundController.WithDeadline
      rw [he]
    · intro now t
      unfold BackgroundController.WithTimeout
      rw [he]
  · intro he
    refine ⟨?_, ?_, ?_, ?_, ?_⟩
    · exact ⟨_, by unfold BackgroundController.GoBackground; rw [he]⟩
    · exact ⟨_, by unfold BackgroundController.GoRecoverableBackground; rw [he]⟩
    · intro k v
      exact ⟨_, by unfold BackgroundController.WithValue; rw [he]⟩
    · intro d
      exact ⟨_, by unfold BackgroundController.WithDeadline; rw [he]⟩
    · intro now t
      exact ⟨_, by unfold BackgroundController.WithTimeout; rw [he]⟩

/-- C8 witness: the dead-scope branch evaluated on a controller built over a
cancelled parent context, and the live branch on one built over the
background context. -/
theorem backgroundController_dead_scope_ops_witness :
    ((NewBackgroundController ⟨some CtxErr.canceled, 0, [], none⟩ "w" 1 2).GoBackground
        = Except.error CtxErr.canceled ∧
      (NewBackgroundController ⟨some CtxErr.canceled, 0, [], none⟩ "w" 1 2).GoRecoverableBackground
        = Except.error CtxErr.canceled ∧
      (∀ k v, (NewBackgroundController ⟨some CtxErr.canceled, 0, [], none⟩ "w" 1 2).WithValue k v
        = Except.error CtxErr.canceled) ∧
      (∀ d, (NewBackgroundController ⟨some CtxErr.canceled, 0, [], none⟩ "w" 1 2).WithDeadline d
        = Except.error CtxErr.canceled) ∧
      (∀ now t, (NewBackgroundController ⟨some CtxErr.canceled, 0, [], none⟩ "w" 1 2).WithTimeout now t
        = Except.error CtxErr.canceled)) ∧
    ((∃ r, (NewBackgroundController ⟨none, 0, [], none⟩ "w" 1 2).GoBackground = Except.ok r) ∧
      (∃ r, (NewBackgroundController ⟨none, 0, [], none⟩ "w" 1 2).GoRecoverableBackground
        = Except.ok r) ∧
      (∀ k v, ∃ r, (NewBackgroundController ⟨none, 0, [], none⟩ "w" 1 2).WithValue k v
        = Except.ok r) ∧
      (∀ d, ∃ r, (NewBackgroundController ⟨none, 0, [], none⟩ "w" 1 2).WithDeadline d
        = Except.ok r) ∧
      (∀ now t, ∃ r, (NewBackgroundController ⟨none, 0, [], none⟩ "w" 1 2).WithTimeout now t
        = Except.ok r)) :=
  ⟨(backgroundController_dead_scope_ops
      (NewBackgroundController ⟨some CtxErr.canceled, 0, [], none⟩ "w" 1 2)
      CtxErr.canceled).1 rfl,
   (backgroundController_dead_scope_ops
      (NewBackgroundController ⟨none, 0, [], none⟩ "w" 1 2)
      CtxErr.canceled).2 rfl⟩

/-- C9: every handle derived from a live handle by `WithValue`,
`WithDeadline` or `WithTimeout` keeps the origin's cancel function,
wait-group and name unchanged and shared, altering only the per-handle
context; consequently, firing `Shutdown` on any derived handle cancels
every worker spawned from any handle of the family (they all observe the
one shared token). -/
theorem backgroundController_derived_sharing (a b : BackgroundController)
    (hwf : a.WellFormed) (hd : Derived a b) :
    b.cancel = a.cancel ∧ b.wg = a.wg ∧ b.name = a.name ∧
    b.ctx.cancelToken = a.ctx.cancelToken ∧
    (∀ (g r : BackgroundController) (w : Worker),
      Derived a g → g.GoBackground = Except.ok (r, w) → b.ShutdownCancels w) := by
  obtain ⟨h1, h2, h3, h4⟩ := derived_frame hd
  refine ⟨h1, h2, h3, h4, ?_⟩
  intro g r w hg hok
  obtain ⟨g1, g2, g3, g4⟩ := derived_frame hg
  unfold BackgroundController.GoBackground at hok
  split at hok
  · exact absurd hok (by simp)
  · simp only [Except.ok.injEq, Prod.mk.injEq] at hok
    unfold BackgroundController.ShutdownCancels
    rw [← hok.2, h1, hwf, ← g4]

/-- C9 witness: a two-step derivation (`WithValue` then `WithDeadline`) from
a freshly constructed controller; the shared cancel/wait-group facts and the
family-wide cancellation consequence are instantiated there. -/
theorem backgroundController_derived_sharing_witness :
    ({ name := "w",
       ctx := { err := none, cancelToken := 5, vals := [(1, 2)], deadline := some 9 },
       cancel := 5, wg := 6 } : BackgroundController).cancel
        = (NewBackgroundController ⟨none, 0, [], none⟩ "w" 5 6).cancel ∧
    ({ name := "w",
       ctx := { err := none, cancelToken := 5, vals := [(1, 2)], deadline := some 9 },
       cancel := 5, wg := 6 } : BackgroundController).wg
        = (NewBackgroundController ⟨none, 0, [], none⟩ "w" 5 6).wg ∧
    ({ name := "w",
       ctx := { err := none, cancelToken := 5, vals := [(1, 2)], deadline := some 9 },
       cancel := 5, wg := 6 } : BackgroundController).name
        = (NewBackgroundController ⟨none, 0, [], none⟩ "w" 5 6).name ∧
    ({ name := "w",
       ctx := { err := none, cancelToken := 5, vals := [(1, 2)], deadline := some 9 },
       cancel := 5, wg := 6 } : BackgroundController).ctx.cancelToken
        = (NewBackgroundController ⟨none, 0, [], none⟩ "w" 5 6).ctx.cancelToken ∧
    (∀ (g r : BackgroundController) (w : Worker),
      Derived (NewBackgroundController ⟨none, 0, [], none⟩ "w" 5 6) g →
      g.GoBackground = Except.ok (r, w) →
      ({ name := "w",
         ctx := { err := none, cancelToken := 5, vals := [(1, 2)], deadline := some 9 },
         cancel := 5, wg := 6 } : BackgroundController).ShutdownCancels w) :=
  backgroundController_derived_sharing
    (NewBackgroundController ⟨none, 0, [], none⟩ "w" 5 6)
    { name := "w",
      ctx := { err := none, cancelToken := 5, vals := [(1, 2)], deadline := some 9 },
      cancel := 5, wg := 6 }
    rfl
    (Derived.deadline 9
      (Derived.value 1 2 (Derived.refl _) rfl)
      rfl)

/-- C10: constructing a controller over an already-cancelled parent context
succeeds without fault (the constructor performs no check), but the handle
is dead from birth: `Die` is `true` immediately, and every subsequent spawn
or derivation call on it faults with the inherited cancellation error. -/
theorem newBackgroundController_dead_parent (parent : GoContext) (name : String)
    (tok wgId : Nat) (e : CtxErr) (he : parent.err = some e) :
    (NewBackgroundController parent name tok wgId).Die = true ∧
    (NewBackgroundController parent name tok wgId).GoBackground = Except.error e ∧
    (NewBackgroundController parent name tok wgId).GoRecoverableBackground
      = Except.error e ∧
    (∀ k v, (NewBackgroundController parent name tok wgId).WithValue k v
      = Except.error e) ∧
    (∀ d, (NewBackgroundController parent name tok wgId).WithDeadline d
      = Except.error e) ∧
    (∀ now t, (NewBackgroundController parent name tok wgId).WithTimeout now t
      = Except.error e) := by
  have hctx : (NewBackgroundController parent name tok wgId).ctx.err = some e := he
  have hops := (backgroundController_dead_scope_ops
    (NewBackgroundController parent name tok wgId) e).1 hctx
  refine ⟨?_, hops.1, hops.2.1, hops.2.2.1, hops.2.2.2.1, hops.2.2.2.2⟩
  unfold BackgroundController.Die
  rw [hctx]
  rfl

/-- C10 witness: a parent context cancelled with `deadlineExceeded`; the
born-dead controller is evaluated there. -/
theorem newBackgroundController_dead_parent_witness :
    (NewBackgroundController ⟨some CtxErr.deadlineExceeded, 3, [(7, 8)], some 4⟩
        "w" 1 2).Die = true ∧
    (NewBackgroundController ⟨some CtxErr.deadlineExceeded, 3, [(7, 8)], some 4⟩
        "w" 1 2).GoBackground = Except.error CtxErr.deadlineExceeded ∧
    (NewBackgroundController ⟨some CtxErr.deadlineExceeded, 3, [(7, 8)], some 4⟩
        "w" 1 2).GoRecoverableBackground = Except.error CtxErr.deadlineExceeded ∧
    (∀ k v, (NewBackgroundController ⟨some CtxErr.deadlineExceeded, 3, [(7, 8)], some 4⟩
        "w" 1 2).WithValue k v = Except.error CtxErr.deadlineExceeded) ∧
    (∀ d, (NewBackgroundController ⟨some CtxErr.deadlineExceeded, 3, [(7, 8)], some 4⟩
        "w" 1 2).WithDeadline d = Except.error CtxErr.deadlineExceeded) ∧
    (∀ now t, (NewBackgroundController ⟨some CtxErr.deadlineExceeded, 3, [(7, 8)], some 4⟩
        "w" 1 2).WithTimeout now t = Except.error CtxErr.deadlineExceeded) :=
  newBackgroundController_dead_parent ⟨some CtxErr.deadlineExceeded, 3, [(7, 8)], some 4⟩
    "w" 1 2 CtxErr.deadlineExceeded rfl
